import Mathlib

/-!
Shallow embedding of the typeset-source extraction pipeline of `paper.py`
(class `ArxivPaper`).  Texts are modelled as `List Char`; the Python regex
scans are translated as explicit left-to-right scanners.  Scanners that jump
forward in the text carry an explicit fuel argument (always instantiated with
`length + 1`), so that every definition is structurally recursive and
kernel-reducible.
-/

namespace Zad

abbrev Str := List Char

/-- Association-list lookup, modelling Python `dict` access (`d[k]` / `d.get(k)`)
for the `file_contents` dictionary of `ArxivPaper.tex`.  Keys inserted by the
pipeline are distinct member names, so first-match lookup agrees with `dict`. -/
def lookupA : List (Str × Str) → Str → Option Str
  | [], _ => none
  | (k, v) :: rest, key => if k = key then some v else lookupA rest key

/-- Python `s.endswith(suf)`. -/
def hasSuffix (s suf : Str) : Bool := suf.isSuffixOf s

/-- Index of the first occurrence of the literal `pat` in a text, modelling
`re.search` for a pattern with no metacharacters (`\\begin\{document\}` on
line 196 of `paper.py`), and the helper scans of the other regex translations. -/
def findSub (pat : Str) : Str → Option Nat
  | [] => if pat.isPrefixOf ([] : Str) then some 0 else none
  | c :: r => if pat.isPrefixOf (c :: r) then some 0 else (findSub pat r).map (· + 1)

/-- Remainder of the text after its first newline (`none` when no newline
follows): the tail of a match of `%.*\n` starting at a comment marker. -/
def dropToNewline : Str → Option Str
  | [] => none
  | c :: r => if c = '\n' then some r else dropToNewline r

/-- Fuelled scanner for `re.sub(r'%.*\n', '\n', content)` (line 188 of
`paper.py`): at each `%` with a newline later on the same line, the match from
the `%` through that newline is replaced by a single newline and scanning
resumes after it; a `%` with no later newline never matches. -/
def stripCommentsF : Nat → Str → Str
  | 0, s => s
  | _ + 1, [] => []
  | n + 1, c :: r =>
    if c = '%' then
      match dropToNewline r with
      | some rem => '\n' :: stripCommentsF n rem
      | none => c :: stripCommentsF n r
    else c :: stripCommentsF n r

/-- Line-comment stripping, `re.sub(r'%.*\n', '\n', content)`. -/
def stripComments (s : Str) : Str := stripCommentsF (s.length + 1) s

/-- Fuelled scanner for `re.sub(b + '.*?' + e, '', content, flags=re.DOTALL)`
with literal delimiters `b`, `e` (lines 189-190 of `paper.py`): at each
occurrence of `b`, the lazy `.*?` extends to the earliest following occurrence
of `e`, the whole block is deleted, and scanning resumes after it; an opening
`b` with no closing `e` never matches. -/
def removeBlocksF (b e : Str) : Nat → Str → Str
  | 0, s => s
  | _ + 1, [] => []
  | n + 1, c :: r =>
    if b.isPrefixOf (c :: r) then
      match findSub e ((c :: r).drop b.length) with
      | some j => removeBlocksF b e n (((c :: r).drop b.length).drop (j + e.length))
      | none => c :: removeBlocksF b e n r
    else c :: removeBlocksF b e n r

/-- Block deletion for a pair of literal delimiters (non-greedy, DOTALL). -/
def removeBlocks (b e : Str) (s : Str) : Str := removeBlocksF b e (s.length + 1) s

/-- Fuelled scanner for `re.sub(r'\n+', '\n', content)` (line 192 of
`paper.py`): a maximal run of newlines is replaced by a single newline. -/
def collapseNLF : Nat → Str → Str
  | 0, s => s
  | _ + 1, [] => []
  | n + 1, c :: r =>
    if c = '\n' then '\n' :: collapseNLF n (r.dropWhile (· = '\n'))
    else c :: collapseNLF n r

/-- Blank-line collapsing, `re.sub(r'\n+', '\n', content)`. -/
def collapseNL (s : Str) : Str := collapseNLF (s.length + 1) s

/-- Character class `[ \t\r\f]` of line 195 of `paper.py`. -/
def isWS (c : Char) : Bool := c = ' ' || c = '\t' || c = '\r' || c = '\x0c'

/-- Fuelled scanner for `re.sub(r'[ \t\r\f]{3,}', ' ', content)` (line 195 of
`paper.py`): a maximal run of three or more horizontal-whitespace characters
is replaced by a single space. -/
def collapseWSF : Nat → Str → Str
  | 0, s => s
  | _ + 1, [] => []
  | n + 1, c :: r =>
    if 3 ≤ ((c :: r).takeWhile isWS).length then
      ' ' :: collapseWSF n ((c :: r).dropWhile isWS)
    else c :: collapseWSF n r

/-- Horizontal-whitespace collapsing, `re.sub(r'[ \t\r\f]{3,}', ' ', content)`. -/
def collapseWS (s : Str) : Str := collapseWSF (s.length + 1) s

/-- Fuelled scanner for Python `s.replace(pat, repl)` (lines 210-213 and 172 of
`paper.py`): every non-overlapping occurrence of `pat`, scanning left to right,
is replaced by `repl`.  All call sites pass a nonempty literal `pat`. -/
def pyReplaceF (pat repl : Str) : Nat → Str → Str
  | 0, s => s
  | _ + 1, [] => []
  | n + 1, c :: r =>
    if pat ≠ [] ∧ pat.isPrefixOf (c :: r) then
      repl ++ pyReplaceF pat repl n ((c :: r).drop pat.length)
    else c :: pyReplaceF pat repl n r

/-- Python `s.replace(pat, repl)` for a nonempty pattern. -/
def pyReplace (s pat repl : Str) : Str := pyReplaceF pat repl (s.length + 1) s

/-- Lazy capture of `(.+?)\}` after a directive opening: shortest nonempty
run of non-newline characters followed by `}`; returns the captured group and
the text after the closing brace. -/
def grabAux : Str → Option (Str × Str)
  | [] => none
  | c :: r =>
    if c = '}' then some ([], r)
    else if c = '\n' then none
    else (grabAux r).map (fun p => (c :: p.1, p.2))

/-- Group capture for `\input\{(.+?)\}`-style directives: the first group
character is matched by `.` (so it may not be a newline, but may be `}`),
then `grabAux` finds the earliest closing brace. -/
def grabGroup : Str → Option (Str × Str)
  | [] => none
  | c :: r =>
    if c = '\n' then none
    else (grabAux r).map (fun p => (c :: p.1, p.2))

/-- Fuelled scanner for `re.findall(p + r'(.+?)\}', main_source)` with `p` the
literal directive opening (`\input{` or `\include{`, lines 203-204 of
`paper.py`): returns the captured filenames of all non-overlapping matches,
scanning left to right and resuming after each match. -/
def findDirectivesF (p : Str) : Nat → Str → List Str
  | 0, _ => []
  | _ + 1, [] => []
  | n + 1, c :: r =>
    if p.isPrefixOf (c :: r) then
      match grabGroup ((c :: r).drop p.length) with
      | some (g, after) => g :: findDirectivesF p n after
      | none => findDirectivesF p n r
    else findDirectivesF p n r

/-- Captured filenames of `\input{...}` / `\include{...}` directives. -/
def findDirectives (p : Str) (s : Str) : List Str := findDirectivesF p (s.length + 1) s

/-- Content normalisation of one member file (lines 187-195 of `paper.py`):
line-comment stripping, `comment`-environment deletion, `\iffalse ... \fi`
deletion, blank-line collapsing, `\\` removal, whitespace collapsing. -/
def normalize (s : Str) : Str :=
  let c1 := stripComments s
  let c2 := removeBlocks ("\\begin\x7bcomment\x7d".data) ("\\end\x7bcomment\x7d".data) c1
  let c3 := removeBlocks ("\\iffalse".data) ("\\fi".data) c2
  let c4 := collapseNL c3
  let c5 := pyReplace c4 ("\\\\".data) []
  collapseWS c5

/-- Literal searched for on line 196 of `paper.py`. -/
def beginDocMarker : Str := "\\begin\x7bdocument\x7d".data

/-- Main-document resolution from the `.bbl` census (lines 163-179 of
`paper.py`).  With no `.bbl` file, a unique `.tex` file is the main document
(`tex_files[0]`, reached only with a nonempty list); with exactly one `.bbl`
file, the candidate obtained by `bbl.replace('.bbl','') + '.tex'` is the main
document when it is among the `.tex` files; otherwise resolution defers. -/
def resolveFromNames (tex_files bbl_file : List Str) : Option Str :=
  match bbl_file with
  | [] => if 1 < tex_files.length then none else tex_files.head?
  | [b] =>
    let cand := pyReplace b (".bbl".data) [] ++ ".tex".data
    if cand ∈ tex_files then some cand else none
  | _ => none

/-- One iteration of the normalisation loop (lines 184-199 of `paper.py`):
normalise the raw content of member `t`, adopt `t` as main document when none
is chosen yet and the normalised content contains the document marker, and
record the normalised content. -/
def contentStep (bundle : List (Str × Str)) (acc : Option Str × List (Str × Str)) (t : Str) :
    Option Str × List (Str × Str) :=
  let content := normalize ((lookupA bundle t).getD [])
  let main := match acc.1 with
    | some m => some m
    | none => if (findSub beginDocMarker content).isSome then some t else none
  (main, acc.2 ++ [(t, content)])

/-- Filename resolution for an include directive (lines 206-209 of `paper.py`):
append `.tex` when the captured name does not already end in it. -/
def resolveName (f : Str) : Str := if hasSuffix f (".tex".data) then f else f ++ ".tex".data

/-- Include inlining (lines 203-213 of `paper.py`): collect the captured names
of `\input{...}` and `\include{...}` directives of the main document, then for
each name replace every occurrence of the `\input`-spelled directive text with
the referenced normalised content (empty when the referenced file is absent). -/
def inlineIncludes (contents : List (Str × Str)) (main_source : Str) : Str :=
  let incs := findDirectives ("\\input\x7b".data) main_source ++
              findDirectives ("\\include\x7b".data) main_source
  incs.foldl (fun src f =>
    pyReplace src ("\\input\x7b".data ++ f ++ ['\x7d'])
      ((lookupA contents (resolveName f)).getD [])) main_source

/-- The bundle-processing part of `ArxivPaper.tex` (lines 158-221 of
`paper.py`), from an opened archive modelled as an association list of member
names and decoded raw contents: classify members by suffix, resolve the main
document, normalise every `.tex` member, inline includes into the main
document, and return the mapping extended with the `"all"` key; `none` when no
`.tex` member exists or no main document is resolved. -/
def texPipeline (bundle : List (Str × Str)) : Option (List (Str × Str)) :=
  let names := bundle.map Prod.fst
  let tex_files := names.filter (fun n => hasSuffix n (".tex".data))
  if tex_files.isEmpty then none
  else
    let bbl_file := names.filter (fun n => hasSuffix n (".bbl".data))
    let main0 := resolveFromNames tex_files bbl_file
    let st := tex_files.foldl (contentStep bundle) (main0, [])
    match st.1 with
    | none => none
    | some m =>
      let main_source := (lookupA st.2 m).getD []
      some (st.2 ++ [("all".data, inlineIncludes st.2 main_source)])

/-- Outcome of `self._paper.download_source` followed by `tarfile.open` in
`ArxivPaper.tex` (lines 136-156 of `paper.py`): a successful download (with a
flag for whether the file is a valid tar archive, and the archive members), an
HTTP-level error with its status code, or any other exception. -/
inductive FetchOutcome where
  | success (isTar : Bool) (bundle : List (Str × Str))
  | httpError (code : Nat)
  | otherError

/-- `ArxivPaper.tex` (lines 132-221 of `paper.py`): a 404 HTTP error and any
non-HTTP exception yield `None`; any other HTTP error is re-raised (modelled
as `Except.error` carrying the status code); a download that is not a tar
archive yields `None`; otherwise the bundle pipeline runs. -/
def tex : FetchOutcome → Except Nat (Option (List (Str × Str)))
  | .httpError c => if c = 404 then .ok none else .error c
  | .otherError => .ok none
  | .success isTar bundle => if isTar then .ok (texPipeline bundle) else .ok none

/-- Keys of an optional mapping; an absent mapping has no keys. -/
def keysOf : Option (List (Str × Str)) → List Str
  | none => []
  | some m => m.map Prod.fst

/-- Terminator test of the region regexes of lines 239 and 242 of `paper.py`:
at a given suffix of the document, the alternation
`(\\section|\\end\{document\}|\\bibliography|\\appendix|$)` matches with the
returned length, where `$` (length 0) matches at end of string or just before
a final newline; `none` when no alternative matches here. -/
def termAt (s : Str) : Option Nat :=
  if ("\\section".data).isPrefixOf s then some ("\\section".data).length
  else if ("\\end\x7bdocument\x7d".data).isPrefixOf s then some ("\\end\x7bdocument\x7d".data).length
  else if ("\\bibliography".data).isPrefixOf s then some ("\\bibliography".data).length
  else if ("\\appendix".data).isPrefixOf s then some ("\\appendix".data).length
  else if s = [] ∨ s = ['\n'] then some 0
  else none

/-- Lazy scan of `.*?(TERM)` after the heading: extend the middle one character
at a time until the terminator alternation matches, returning the middle and
the matched terminator text. -/
def scanToTerm : Str → Option (Str × Str)
  | [] => some ([], [])
  | c :: r =>
    match termAt (c :: r) with
    | some k => some ([], (c :: r).take k)
    | none =>
      match scanToTerm r with
      | some (m, tm) => some (c :: m, tm)
      | none => none

/-- Literal heading `\section{NAME}` of the region regexes. -/
def secHeading (name : Str) : Str := "\\section\x7b".data ++ name ++ ['\x7d']

/-- Region extraction of lines 239-244 of `paper.py`:
`re.search(r'\\section\{NAME\}.*?(TERM)', content, flags=re.DOTALL)` and
`match.group(0)` when a match exists, the empty string otherwise.  The whole
match starts at the first occurrence of the heading and, `.*?` being lazy,
ends with the earliest following terminator (which `group(0)` includes). -/
def extractSection (name : Str) (content : Str) : Str :=
  match findSub (secHeading name) content with
  | none => []
  | some i =>
    match scanToTerm (content.drop (i + (secHeading name).length)) with
    | some (m, tm) => secHeading name ++ m ++ tm
    | none => []

/-- Bracket extraction of line 371 of `paper.py`:
`re.search(r'\[.*?\]', affiliations, flags=re.DOTALL)` — the match runs from
the first `[` of the reply to the earliest `]` after it; `none` (modelling the
`AttributeError` caught on line 375) when there is no such substring. -/
def extractBracket (s : Str) : Option Str :=
  match findSub (['[']) s with
  | none => none
  | some i =>
    let rest := s.drop (i + 1)
    match findSub ([']']) rest with
    | none => none
    | some j => some ('[' :: rest.take j ++ [']'])

/-- Reply parsing of lines 370-378 of `paper.py`.  The `eval` step (and the
subsequent iteration of `list(set(...))`) is abstracted as a parameter `ev`
returning the evaluated list of elements in their string form (`none` models
any exception raised by `eval` or by iterating a non-list value); `list(set(
...))` is modelled as deduplication and `[str(a) for a in ...]` is the
identity on the already-stringified elements. -/
def parseAffiliations (ev : Str → Option (List Str)) (reply : Str) : Option (List Str) :=
  match extractBracket reply with
  | none => none
  | some b =>
    match ev b with
    | none => none
    | some xs => some xs.dedup

/-- The fields of the wrapped `arxiv.Result` metadata record used by
`ArxivPaper`; `links` holds the `href` values of the record's links. -/
structure ArxivResult where
  title : Str
  summary : Str
  authors : List Str
  short_id : Str
  links : Option (List Str)
  pdf_url : Option Str
deriving DecidableEq

/-- Suffix strip of `re.sub(r'v\d+$', '', s)` on a text with no trailing
newline: remove a maximal nonempty trailing digit run preceded by `v`. -/
def stripVSuffix1 (t : Str) : Str :=
  let r := t.reverse
  let ds := r.takeWhile (fun c => c.isDigit)
  if ds ≠ [] ∧ (r.drop ds.length).head? = some 'v' then (r.drop (ds.length + 1)).reverse else t

/-- `re.sub(r'v\d+$', '', s)` of line 38 of `paper.py`: `$` matches at end of
string or just before a final newline, and a digit cannot precede `$`-at-end
when the last character is a newline, so at most one match exists. -/
def stripVSuffix (s : Str) : Str :=
  match s.getLast? with
  | some '\n' => stripVSuffix1 s.dropLast ++ ['\n']
  | _ => stripVSuffix1 s

/-- `ArxivPaper.arxiv_id` (lines 36-38 of `paper.py`). -/
def arxivId (r : ArxivResult) : Str := stripVSuffix r.short_id

/-- `ArxivPaper.pdf_url` (lines 40-52 of `paper.py`): return the stored link
when present; otherwise compute a URL from the identifier, overridden by the
first link (with `abs` replaced by `pdf`) when links exist, store it into the
record's `pdf_url` field, and return it.  `none` models the uncaught
`IndexError` of `links[0]` on an empty link list. -/
def pdfUrlGet (r : ArxivResult) : Option (Str × ArxivResult) :=
  match r.pdf_url with
  | some u => some (u, r)
  | none =>
    let base := "https://arxiv.org/pdf/".data ++ arxivId r ++ ".pdf".data
    match r.links with
    | none => some (base, { r with pdf_url := some base })
    | some [] => none
    | some (l :: _) =>
      let u := pyReplace l ("abs".data) ("pdf".data)
      some (u, { r with pdf_url := some u })

/-- URL computed from the identifier on line 45 of `paper.py`. -/
def idUrl (r : ArxivResult) : Str := "https://arxiv.org/pdf/".data ++ arxivId r ++ ".pdf".data

/-- Fixed-point characterisation of comment stripping: no comment marker is
followed, anywhere later in the text, by a newline (so the pattern `%.*\n`
has no match). -/
def noPctNl : Str → Bool
  | [] => true
  | c :: r => (if c = '%' then !(r.contains '\n') else true) && noPctNl r

/-- Fixed-point characterisation of blank-line collapsing: no two adjacent
newlines. -/
def noNN : Str → Bool
  | a :: b :: r => !(a == '\n' && b == '\n') && noNN (b :: r)
  | _ => true

/-- Fixed-point characterisation of whitespace collapsing: no three adjacent
horizontal-whitespace characters. -/
def noThreeWS : Str → Bool
  | a :: b :: c :: r => !(isWS a && isWS b && isWS c) && noThreeWS (b :: c :: r)
  | _ => true

/-- Length of the leading horizontal-whitespace run. -/
def wsRun (s : Str) : Nat := (s.takeWhile isWS).length

/-- Claim C1: evaluation of the code at the failing input.  On a bundle whose
main document contains `\include{intro}` and which contains `intro.tex`, the
flattened `"all"` entry still contains the `\include{intro}` directive as
literal text (and not the content `Hello` of `intro.tex`): the replacement on
lines 210-213 of `paper.py` targets only the `\input` spelling, so a found
`\include` directive is never substituted, contradicting the claim that the
flattened document contains no remaining `\include` directive referencing a
file present in the bundle. -/
theorem c1_include_directive_left_unreplaced :
    (texPipeline
        [("main.tex".data,
          "\\begin\x7bdocument\x7d\\include\x7bintro\x7d\\end\x7bdocument\x7d".data),
         ("intro.tex".data, "Hello".data)]).bind
      (fun m => lookupA m ("all".data)) =
      some ("\\begin\x7bdocument\x7d\\include\x7bintro\x7d\\end\x7bdocument\x7d".data) ∧
    ("\\include\x7bintro\x7d".data) <:+:
      "\\begin\x7bdocument\x7d\\include\x7bintro\x7d\\end\x7bdocument\x7d".data := by
  decide

/-- Claim C5: a bundle with no `.tex` member makes the pipeline return `none`
(lines 158-161 of `paper.py`): the main document is absent and the
normalized-content mapping has no member keys and no `"all"` key. -/
theorem c5_no_tex_files_yields_none (bundle : List (Str × Str))
    (h : ∀ p ∈ bundle, hasSuffix p.1 (".tex".data) = false) :
    texPipeline bundle = none ∧ keysOf (texPipeline bundle) = [] := by
  have hfilter : (bundle.map Prod.fst).filter (fun n => hasSuffix n (".tex".data)) = [] := by
    rw [List.filter_eq_nil_iff]
    intro a ha
    rcases List.mem_map.mp ha with ⟨p, hp, rfl⟩
    simp [h p hp]
  have : texPipeline bundle = none := by
    simp [texPipeline, hfilter]
  exact ⟨this, by simp [this, keysOf]⟩

/-- Claim C5 witness. -/
theorem c5_no_tex_files_yields_none_witness :
    texPipeline [("a.bbl".data, "x".data)] = none ∧
    keysOf (texPipeline [("a.bbl".data, "x".data)]) = [] :=
  c5_no_tex_files_yields_none [("a.bbl".data, "x".data)] (by decide)

/-- Claim C8: in `ArxivPaper.tex` (lines 136-151 of `paper.py`), a 404 HTTP
error during the download yields an absent result, every other HTTP error is
re-raised to the caller, and any non-HTTP exception is swallowed and converted
to an absent result. -/
theorem c8_download_error_dispatch (c : Nat) :
    tex (.httpError 404) = .ok none ∧
    (c ≠ 404 → tex (.httpError c) = .error c) ∧
    tex .otherError = .ok none := by
  refine ⟨rfl, fun hc => ?_, rfl⟩
  simp [tex, hc]

/-- Claim C8 witness: a 503 error is re-raised. -/
theorem c8_download_error_dispatch_witness :
    (503 : Nat) ≠ 404 ∧ tex (.httpError 503) = .error 503 :=
  ⟨by decide, (c8_download_error_dispatch 503).2.1 (by decide)⟩

/-- Claim C2 counterexample: on a document with an `Introduction` section
followed by a `Conclusion` section, the extracted introduction region is
`\section{Introduction}A\section` — `match.group(0)` on line 241 of `paper.py`
includes the matched terminator `\section` — and not the claimed substring
that stops just before the next section heading. -/
theorem c2_region_includes_terminator_counterexample :
    extractSection ("Introduction".data)
        ("\\section\x7bIntroduction\x7dA\\section\x7bConclusion\x7dB".data) =
      "\\section\x7bIntroduction\x7dA\\section".data ∧
    "\\section\x7bIntroduction\x7dA\\section".data ≠
      "\\section\x7bIntroduction\x7dA".data := by
  decide

/-- Claim C3 counterexample: the main document `\input{a}\input{b}` includes
`a.tex`, whose content contains the further directive `\input{b}`; the
flattened output is `XX`, in which that inner directive does not remain as
literal text — the later replacement of `\input{b}` (collected from the
original main document) also rewrites the copy introduced by substituting
`a.tex`. -/
theorem c3_nested_include_resolved_counterexample :
    inlineIncludes [("a.tex".data, "\\input\x7bb\x7d".data), ("b.tex".data, "X".data)]
        ("\\input\x7ba\x7d\\input\x7bb\x7d".data) = "XX".data ∧
    ¬ ("\\input\x7bb\x7d".data <:+: "XX".data) := by
  decide

/-- Claim C4 counterexample: on the input `a\%b cmt\n` the comment stripper of
line 188 of `paper.py` removes everything from the escaped marker `\%` to the
end of the line, yielding `a\` plus a newline — text following an escaped
comment marker is not preserved. -/
theorem c4_escaped_percent_counterexample :
    stripComments ("a\\%b cmt\n".data) = "a\\\n".data ∧
    stripComments ("a\\%b cmt\n".data) ≠ "a\\%b cmt\n".data := by
  decide

/-- Claim C6 counterexample: on the input consisting of a newline, two
backslashes and a newline, one application of the normaliser yields two
newlines (the `\\` removal of line 193 of `paper.py` joins them after the
blank-line collapsing of line 192 has already run), and a second application
collapses them to one — the full transformation sequence is not idempotent. -/
theorem c6_normalizer_not_idempotent_counterexample :
    normalize ("\n\\\\\n".data) = "\n\n".data ∧
    normalize (normalize ("\n\\\\\n".data)) = "\n".data ∧
    normalize (normalize ("\n\\\\\n".data)) ≠ normalize ("\n\\\\\n".data) := by
  decide

/-- Claim C7 counterexample: the bundle has exactly one bibliography file
`x.bbl.bbl`, whose stem `x.bbl` matches the existing source file `x.bbl.tex`,
yet the resolver does not select it: `bbl.replace('.bbl','')` on line 172 of
`paper.py` removes every occurrence of `.bbl`, producing the candidate `x.tex`,
which is absent, so resolution defers — and the whole pipeline finds no main
document when no member contains the document marker. -/
theorem c7_bbl_stem_counterexample :
    resolveFromNames ["x.bbl.tex".data] ["x.bbl.bbl".data] = none ∧
    texPipeline [("x.bbl.tex".data, "hello".data), ("x.bbl.bbl".data, [])] = none := by
  decide

/-- Claim C10: when the wrapped record's pdf link is absent, accessing the
pdf-url property computes a URL — from the first link (with `abs` replaced by
`pdf`) when links exist, otherwise from the identifier — writes it back into
the record's `pdf_url` field, leaves every other field unchanged, and a
subsequent access returns the stored value (lines 40-52 of `paper.py`). -/
theorem c10_pdf_url_writeback (r : ArxivResult) (h : r.pdf_url = none) :
    (r.links = none → pdfUrlGet r = some (idUrl r, { r with pdf_url := some (idUrl r) })) ∧
    (∀ l t, r.links = some (l :: t) →
      pdfUrlGet r = some (pyReplace l ("abs".data) ("pdf".data),
        { r with pdf_url := some (pyReplace l ("abs".data) ("pdf".data)) })) ∧
    (∀ u r', pdfUrlGet r = some (u, r') →
      r'.pdf_url = some u ∧ r'.title = r.title ∧ r'.summary = r.summary ∧
      r'.authors = r.authors ∧ r'.short_id = r.short_id ∧ r'.links = r.links ∧
      pdfUrlGet r' = some (u, r')) := by
  refine ⟨fun hl => ?_, fun l t hl => ?_, fun u r' hur => ?_⟩
  · simp [pdfUrlGet, h, hl, idUrl]
  · simp [pdfUrlGet, h, hl]
  · rcases hl : r.links with _ | ls
    · simp only [pdfUrlGet, h, hl, Option.some.injEq, Prod.mk.injEq] at hur
      rcases hur with ⟨hu, hr⟩
      subst hr
      simp [pdfUrlGet, ← hu]
    · rcases ls with _ | ⟨l, t⟩
      · simp [pdfUrlGet, h, hl] at hur
      · simp only [pdfUrlGet, h, hl, Option.some.injEq, Prod.mk.injEq] at hur
        rcases hur with ⟨hu, hr⟩
        subst hr
        simp [pdfUrlGet, ← hu]

/-- Claim C10 witness: a record with no stored pdf link and no links gets the
identifier-derived URL (version suffix stripped) written back, other fields
unchanged, and the second access returns the stored value. -/
theorem c10_pdf_url_writeback_witness :
    pdfUrlGet ⟨"T".data, "S".data, [], "2501.00001v2".data, none, none⟩ =
      some ("https://arxiv.org/pdf/2501.00001.pdf".data,
        ⟨"T".data, "S".data, [], "2501.00001v2".data, none,
          some ("https://arxiv.org/pdf/2501.00001.pdf".data)⟩) ∧
    pdfUrlGet ⟨"T".data, "S".data, [], "2501.00001v2".data, none,
        some ("https://arxiv.org/pdf/2501.00001.pdf".data)⟩ =
      some ("https://arxiv.org/pdf/2501.00001.pdf".data,
        ⟨"T".data, "S".data, [], "2501.00001v2".data, none,
          some ("https://arxiv.org/pdf/2501.00001.pdf".data)⟩) := by
  have h1 := (c10_pdf_url_writeback
    ⟨"T".data, "S".data, [], "2501.00001v2".data, none, none⟩ rfl).1 rfl
  have hid : idUrl ⟨"T".data, "S".data, [], "2501.00001v2".data, none, none⟩ =
      "https://arxiv.org/pdf/2501.00001.pdf".data := by decide
  rw [hid] at h1
  exact ⟨h1, by decide⟩

theorem isPrefixOf_eq_true_iff (l₁ l₂ : Str) : l₁.isPrefixOf l₂ = true ↔ l₁ <+: l₂ :=
  List.isPrefixOf_iff_prefix

theorem toInfixRel (l₁ l₂ : Str) (h : l₁ <+: l₂) : l₁ <:+: l₂ :=
  h.isInfix

theorem pyReplaceF_nil (pat repl : Str) (n : Nat) : pyReplaceF pat repl n [] = [] := by
  cases n <;> rfl

/-- findSub for a one-character pattern locates the first occurrence of
that character. -/
theorem findSub_char (c : Char) (pre post : Str) (h : c ∉ pre) :
    findSub [c] (pre ++ c :: post) = some pre.length := by
  induction pre with
  | nil => simp [findSub, List.isPrefixOf]
  | cons a pre' ih =>
    have ha : ¬ ([c].isPrefixOf (a :: (pre' ++ c :: post)) = true) := by
      intro hb
      have hca : c = a := by simpa [List.isPrefixOf] using hb
      exact h (by simp [hca])
    have hm : c ∉ pre' := fun hm => h (List.mem_cons_of_mem a hm)
    show (if [c].isPrefixOf (a :: (pre' ++ c :: post)) = true then some 0
        else (findSub [c] (pre' ++ c :: post)).map (· + 1)) = some (a :: pre').length
    rw [if_neg ha, ih hm]
    rfl

/-- Claim C9: reply parsing for affiliation extraction (lines 370-378 of
`paper.py`, with the Python `eval`/`set` steps abstracted as `ev`): the first
bracketed substring of the reply is located (from the first `[` to the
earliest `]` after it); when no bracketed substring exists, or evaluation
fails, the result is absent; when the bracketed substring evaluates to a list,
the result is its deduplication — in particular a reply containing `[]`
produces `some []`, which is distinct from the absent result `none`. -/
theorem c9_affiliation_reply_parsing (ev : Str → Option (List Str)) (reply b : Str)
    (xs : List Str) :
    (extractBracket reply = none → parseAffiliations ev reply = none) ∧
    (extractBracket reply = some b → ev b = none → parseAffiliations ev reply = none) ∧
    (extractBracket reply = some b → ev b = some xs →
      parseAffiliations ev reply = some xs.dedup ∧ parseAffiliations ev reply ≠ none) ∧
    (∀ pre mid post, reply = pre ++ '[' :: (mid ++ ']' :: post) → '[' ∉ pre → ']' ∉ mid →
      extractBracket reply = some ('[' :: mid ++ [']'])) := by
  refine ⟨fun h => ?_, fun h hev => ?_, fun h hev => ?_, fun pre mid post hre hpre hmid => ?_⟩
  · simp [parseAffiliations, h]
  · simp [parseAffiliations, h, hev]
  · simp [parseAffiliations, h, hev]
  · subst hre
    have h1 : findSub ['['] (pre ++ '[' :: (mid ++ ']' :: post)) = some pre.length :=
      findSub_char '[' pre _ hpre
    have hdrop : (pre ++ '[' :: (mid ++ ']' :: post)).drop (pre.length + 1) =
        mid ++ ']' :: post := by
      rw [List.append_cons]
      have hl : (pre ++ ['[']).length = pre.length + 1 := by simp
      rw [← hl]
      exact List.drop_left (pre ++ ['[']) (mid ++ ']' :: post)
    have h2 : findSub [']'] (mid ++ ']' :: post) = some mid.length :=
      findSub_char ']' mid post hmid
    have h3 : (mid ++ ']' :: post).take mid.length = mid := List.take_left mid (']' :: post)
    simp [extractBracket, h1, hdrop, h2, h3]

/-- Claim C9 witness: a reply whose bracketed substring evaluates to the empty
list yields `some []`, not `none`. -/
theorem c9_affiliation_reply_parsing_witness :
    parseAffiliations (fun _ => some ([] : List Str)) ("sure: [] here".data) = some [] ∧
    parseAffiliations (fun _ => some ([] : List Str)) ("sure: [] here".data) ≠ none := by
  have h := (c9_affiliation_reply_parsing (fun _ => some ([] : List Str))
    ("sure: [] here".data) ("[]".data) []).2.2.1 (by decide) rfl
  simpa using h

/-- pyReplaceF on a text that is `a` followed by `pat`, with no occurrence of
`pat` starting inside `a`, replaces exactly the final occurrence. -/
theorem pyReplaceF_no_occ (pat repl : Str) (hpat : pat ≠ []) :
    ∀ n a, (a ++ pat).length ≤ n →
      (∀ i, i < a.length → ¬ pat <+: ((a ++ pat).drop i)) →
      pyReplaceF pat repl n (a ++ pat) = a ++ repl := by
  intro n
  induction n with
  | zero =>
    intro a hlen _
    exfalso
    have hp : 0 < pat.length := List.length_pos.mpr hpat
    have h0 : (a ++ pat).length = 0 := Nat.le_zero.mp hlen
    rw [List.length_append] at h0
    omega
  | succ n ih =>
    intro a hlen hocc
    cases a with
    | nil =>
      cases hp : pat with
      | nil => exact absurd hp hpat
      | cons c r =>
        have hpre : (c :: r).isPrefixOf (c :: r) = true :=
          (isPrefixOf_eq_true_iff _ _).mpr (List.prefix_refl _)
        show (if (c :: r) ≠ [] ∧ (c :: r).isPrefixOf (c :: r) = true then
            repl ++ pyReplaceF (c :: r) repl n ((c :: r).drop (c :: r).length)
          else c :: pyReplaceF (c :: r) repl n r) = [] ++ repl
        rw [if_pos ⟨by simp, hpre⟩, List.drop_length, pyReplaceF_nil]
        simp
    | cons x a' =>
      have h0 : ¬ pat <+: (x :: (a' ++ pat)) := by
        have := hocc 0 (by simp)
        simpa using this
      have hcond : ¬ (pat ≠ [] ∧ pat.isPrefixOf (x :: (a' ++ pat)) = true) := by
        rintro ⟨-, hb⟩
        exact h0 (isPrefixOf_eq_true_iff _ _ |>.mp hb)
      show (if pat ≠ [] ∧ pat.isPrefixOf (x :: (a' ++ pat)) = true then
          repl ++ pyReplaceF pat repl n ((x :: (a' ++ pat)).drop pat.length)
        else x :: pyReplaceF pat repl n (a' ++ pat)) = (x :: a') ++ repl
      rw [if_neg hcond]
      have hlen' : (a' ++ pat).length ≤ n := by
        simp [List.length_append] at hlen ⊢
        omega
      have hocc' : ∀ i, i < a'.length → ¬ pat <+: ((a' ++ pat).drop i) := by
        intro i hi
        have := hocc (i + 1) (by simpa using Nat.succ_lt_succ hi)
        simpa using this
      rw [ih a' hlen' hocc']
      rfl

/-- Python `(a ++ pat).replace(pat, repl)` with no occurrence of `pat`
starting inside `a` yields `a ++ repl`. -/
theorem pyReplace_append_pat (a pat repl : Str) (hpat : pat ≠ [])
    (hocc : ∀ i, i < a.length → ¬ pat <+: ((a ++ pat).drop i)) :
    pyReplace (a ++ pat) pat repl = a ++ repl :=
  pyReplaceF_no_occ pat repl hpat _ a (Nat.le_succ _) hocc

/-- Claim C7 (amended): for a bundle with exactly one bibliography file whose
name is `stem ++ ".bbl"`, provided `.bbl` occurs in that name only as the
final suffix, the resolver of lines 163-179 of `paper.py` selects the matching
source file `stem ++ ".tex"` whenever it is among the `.tex` members — and the
selection is invariant under any permutation of the `.tex` member list, i.e.
independent of the bundle's enumeration order. -/
theorem c7_bbl_resolver_amended (stem : Str) (tex_files tex_files' : List Str)
    (hocc : ∀ i, i < stem.length → ¬ ((".bbl".data) <+: ((stem ++ ".bbl".data).drop i)))
    (hmem : (stem ++ ".tex".data) ∈ tex_files)
    (hperm : List.Perm tex_files tex_files') :
    resolveFromNames tex_files' [stem ++ ".bbl".data] = some (stem ++ ".tex".data) := by
  have hrepl : pyReplace (stem ++ ".bbl".data) (".bbl".data) [] = stem := by
    have h := pyReplace_append_pat stem (".bbl".data) [] (by decide) hocc
    simpa using h
  have hmem' : (stem ++ ".tex".data) ∈ tex_files' := hperm.mem_iff.mp hmem
  simp [resolveFromNames, hrepl, hmem']

/-- Claim C7 witness: the bundle members enumerate as `other.tex, main.tex`
(reversed order) with the single bibliography file `main.bbl`; the resolver
still selects `main.tex`. -/
theorem c7_bbl_resolver_amended_witness :
    resolveFromNames ["other.tex".data, "main.tex".data] ["main.bbl".data] =
      some ("main.tex".data) := by
  have h := c7_bbl_resolver_amended ("main".data)
    ["main.tex".data, "other.tex".data] ["other.tex".data, "main.tex".data]
    (by decide) (by decide) (by decide)
  have e1 : "main".data ++ ".bbl".data = "main.bbl".data := by decide
  have e2 : "main".data ++ ".tex".data = "main.tex".data := by decide
  rw [e1, e2] at h
  exact h

theorem grabAux_decomp :
    ∀ t g rest, grabAux t = some (g, rest) → t = g ++ '}' :: rest := by
  intro t
  induction t with
  | nil => intro g rest h; simp [grabAux] at h
  | cons c r ih =>
    intro g rest h
    by_cases hc : c = '}'
    · subst hc
      simp only [grabAux, if_true, reduceIte, Option.some.injEq, Prod.mk.injEq] at h
      rcases h with ⟨rfl, rfl⟩
      rfl
    · by_cases hn : c = '\n'
      · simp [grabAux, hc, hn] at h
      · simp only [grabAux, if_neg hc, if_neg hn, Option.map_eq_some'] at h
        obtain ⟨⟨g', rest'⟩, hg, he⟩ := h
        simp only [Prod.mk.injEq] at he
        rw [← he.1, ← he.2]
        rw [List.cons_append]
        exact congrArg (c :: ·) (ih g' rest' hg)

theorem grabGroup_decomp :
    ∀ t g rest, grabGroup t = some (g, rest) → t = g ++ '}' :: rest := by
  intro t g rest h
  cases t with
  | nil => simp [grabGroup] at h
  | cons c r =>
    by_cases hn : c = '\n'
    · simp [grabGroup, hn] at h
    · simp only [grabGroup, if_neg hn, Option.map_eq_some'] at h
      obtain ⟨⟨g', rest'⟩, hg, he⟩ := h
      simp only [Prod.mk.injEq] at he
      rw [← he.1, ← he.2, List.cons_append]
      exact congrArg (c :: ·) (grabAux_decomp r g' rest' hg)

/-- Every filename captured by the directive scanner comes from an actual
occurrence of the full directive text in the scanned document. -/
theorem findDirectivesF_occurs (p : Str) :
    ∀ n s g, g ∈ findDirectivesF p n s → (p ++ g ++ ['\x7d']) <:+: s := by
  intro n
  induction n with
  | zero => intro s g h; simp [findDirectivesF] at h
  | succ n ih =>
    intro s g h
    cases s with
    | nil => simp [findDirectivesF] at h
    | cons c r =>
      have hunf : findDirectivesF p (n + 1) (c :: r) =
          if p.isPrefixOf (c :: r) = true then
            match grabGroup ((c :: r).drop p.length) with
            | some (g0, after) => g0 :: findDirectivesF p n after
            | none => findDirectivesF p n r
          else findDirectivesF p n r := rfl
      rw [hunf] at h
      by_cases hp : p.isPrefixOf (c :: r) = true
      · rw [if_pos hp] at h
        cases hg : grabGroup ((c :: r).drop p.length) with
        | none =>
          rw [hg] at h
          exact List.infix_cons (ih r g h)
        | some pr =>
          obtain ⟨g0, after⟩ := pr
          rw [hg] at h
          have hsplit : c :: r = (p ++ g0 ++ ['\x7d']) ++ after := by
            have h1 : p ++ (c :: r).drop p.length = c :: r :=
              List.prefix_iff_eq_append.mp (isPrefixOf_eq_true_iff _ _ |>.mp hp)
            have h2 : (c :: r).drop p.length = g0 ++ '}' :: after :=
              grabGroup_decomp _ g0 after hg
            rw [h2] at h1
            rw [← h1, List.append_cons]
            simp [List.append_assoc]
          rcases List.mem_cons.mp h with h | h
          · subst h
            exact ⟨[], after, by simpa using hsplit.symm⟩
          · have h3 : (p ++ g ++ ['\x7d']) <:+: after := ih after g h
            have h4 : after <:+: c :: r := ⟨p ++ g0 ++ ['\x7d'], [], by simp [hsplit]⟩
            exact h3.trans h4
      · rw [if_neg hp] at h
        exact List.infix_cons (ih r g h)

theorem findDirectives_occurs (p s g : Str) (h : g ∈ findDirectives p s) :
    (p ++ g ++ ['\x7d']) <:+: s :=
  findDirectivesF_occurs p _ s g h

/-- The replacement text occurs in the output of a replacement whose pattern
occurs in the input. -/
theorem pyReplaceF_repl_occurs (pat repl : Str) (hpat : pat ≠ []) :
    ∀ n s, s.length ≤ n → pat <:+: s → repl <:+: pyReplaceF pat repl n s := by
  intro n
  induction n with
  | zero =>
    intro s hlen hinf
    have : s = [] := List.length_eq_zero.mp (Nat.le_zero.mp hlen)
    subst this
    exact absurd (List.eq_nil_of_infix_nil hinf) hpat
  | succ n ih =>
    intro s hlen hinf
    cases s with
    | nil => exact absurd (List.eq_nil_of_infix_nil hinf) hpat
    | cons c r =>
      by_cases hp : pat.isPrefixOf (c :: r) = true
      · show repl <:+: (if pat ≠ [] ∧ pat.isPrefixOf (c :: r) = true then
            repl ++ pyReplaceF pat repl n ((c :: r).drop pat.length)
          else c :: pyReplaceF pat repl n r)
        rw [if_pos ⟨hpat, hp⟩]
        exact toInfixRel _ _ (List.prefix_append repl _)
      · show repl <:+: (if pat ≠ [] ∧ pat.isPrefixOf (c :: r) = true then
            repl ++ pyReplaceF pat repl n ((c :: r).drop pat.length)
          else c :: pyReplaceF pat repl n r)
        rw [if_neg (fun hb => hp hb.2)]
        have hr : pat <:+: r := by
          rcases List.infix_cons_iff.mp hinf with h | h
          · exact absurd (isPrefixOf_eq_true_iff _ _ |>.mpr h) hp
          · exact h
        have hrl : r.length ≤ n := by
          simp only [List.length_cons] at hlen
          omega
        exact List.infix_cons (ih r hrl hr)

/-- Claim C3 (amended): include inlining is single-pass in the sense that
directives are collected only from the original main document, before any
substitution; in particular, when the original main document's directives
consist of a single `\input{a}` directive, the referenced content is inserted
verbatim, so any directive text contained in it (more generally, any substring
of it) appears literally in the flattened output.  (The counterexample above
shows the restriction to a single collected directive is needed: a later
replacement for another directive collected from the original main document
may rewrite a copy introduced by an earlier substitution.) -/
theorem c3_single_pass_amended (contents : List (Str × Str)) (main a ca inner : Str)
    (h1 : findDirectives ("\\input\x7b".data) main = [a])
    (h2 : findDirectives ("\\include\x7b".data) main = [])
    (h3 : lookupA contents (resolveName a) = some ca)
    (h4 : inner <:+: ca) :
    inner <:+: inlineIncludes contents main := by
  have hmem : a ∈ findDirectives ("\\input\x7b".data) main := by
    rw [h1]; exact List.mem_singleton_self a
  have hoc : ("\\input\x7b".data ++ a ++ ['\x7d']) <:+: main :=
    findDirectives_occurs _ main a hmem
  have hres : inlineIncludes contents main =
      pyReplace main ("\\input\x7b".data ++ a ++ ['\x7d']) ca := by
    unfold inlineIncludes
    rw [h1, h2]
    simp [h3]
  rw [hres]
  have hrepl : ca <:+: pyReplace main ("\\input\x7b".data ++ a ++ ['\x7d']) ca :=
    pyReplaceF_repl_occurs _ ca (by simp) _ main (Nat.le_succ _) hoc
  exact h4.trans hrepl

/-- Claim C3 witness: the main document's only directive names `a`, whose
content contains the inner directive `\input{z}`; the inner directive remains
literal in the flattened output. -/
theorem c3_single_pass_amended_witness :
    ("\\input\x7bz\x7d".data) <:+:
      inlineIncludes [("a.tex".data, "P\\input\x7bz\x7dQ".data)] ("B\\input\x7ba\x7dC".data) :=
  c3_single_pass_amended [("a.tex".data, "P\\input\x7bz\x7dQ".data)] ("B\\input\x7ba\x7dC".data)
    ("a".data) ("P\\input\x7bz\x7dQ".data) ("\\input\x7bz\x7d".data)
    (by decide) (by decide) (by decide) (by decide)

theorem stripCommentsF_nil (n : Nat) : stripCommentsF n [] = [] := by
  cases n <;> rfl

theorem stripCommentsF_cons (n : Nat) (c : Char) (r : Str) :
    stripCommentsF (n + 1) (c :: r) =
      if c = '%' then
        match dropToNewline r with
        | some rem => '\n' :: stripCommentsF n rem
        | none => c :: stripCommentsF n r
      else c :: stripCommentsF n r := rfl

theorem dropToNewline_le : ∀ l t : Str, dropToNewline l = some t → t.length ≤ l.length := by
  intro l
  induction l with
  | nil => intro t h; simp [dropToNewline] at h
  | cons c r ih =>
    intro t h
    by_cases hc : c = '\n'
    · subst hc
      simp only [dropToNewline, reduceIte, Option.some.injEq] at h
      subst h
      simp
    · simp only [dropToNewline, if_neg hc] at h
      exact Nat.le_succ_of_le (ih t h)

theorem dropToNewline_none_iff : ∀ l : Str, dropToNewline l = none ↔ '\n' ∉ l := by
  intro l
  induction l with
  | nil => simp [dropToNewline]
  | cons c r ih =>
    by_cases hc : c = '\n'
    · subst hc; simp [dropToNewline]
    · simp [dropToNewline, hc, ih, Ne.symm hc]

theorem dropToNewline_append (l r : Str) (h : '\n' ∉ l) :
    dropToNewline (l ++ '\n' :: r) = some r := by
  induction l with
  | nil => simp [dropToNewline]
  | cons c l' ih =>
    have hc : c ≠ '\n' := fun hc => h (by simp [hc])
    have hl : '\n' ∉ l' := fun hm => h (List.mem_cons_of_mem c hm)
    simp [dropToNewline, hc, ih hl]

/-- Fuel irrelevance for the comment-stripping scanner. -/
theorem stripCommentsF_eq : ∀ n m s, s.length ≤ n → s.length ≤ m →
    stripCommentsF n s = stripCommentsF m s := by
  intro n
  induction n with
  | zero =>
    intro m s hn _
    have : s = [] := List.length_eq_zero.mp (Nat.le_zero.mp hn)
    subst this
    rw [stripCommentsF_nil, stripCommentsF_nil]
  | succ n ih =>
    intro m s hn hm
    cases s with
    | nil => rw [stripCommentsF_nil, stripCommentsF_nil]
    | cons c r =>
      cases m with
      | zero => exact absurd hm (by simp)
      | succ m =>
        have hrn : r.length ≤ n := by simp only [List.length_cons] at hn; omega
        have hrm : r.length ≤ m := by simp only [List.length_cons] at hm; omega
        rw [stripCommentsF_cons, stripCommentsF_cons]
        by_cases hc : c = '%'
        · rw [if_pos hc, if_pos hc]
          cases hd : dropToNewline r with
          | none =>
            show c :: stripCommentsF n r = c :: stripCommentsF m r
            rw [ih m r hrn hrm]
          | some rem =>
            have hrem : rem.length ≤ r.length := dropToNewline_le r rem hd
            show '\n' :: stripCommentsF n rem = '\n' :: stripCommentsF m rem
            rw [ih m rem (le_trans hrem hrn) (le_trans hrem hrm)]
        · rw [if_neg hc, if_neg hc, ih m r hrn hrm]

/-- A text with no newline is a fixed point of comment stripping: the regex
`%.*\n` requires a newline to match. -/
theorem stripCommentsF_no_newline : ∀ n s, '\n' ∉ s → stripCommentsF n s = s := by
  intro n
  induction n with
  | zero => intro s _; rfl
  | succ n ih =>
    intro s h
    cases s with
    | nil => rfl
    | cons c r =>
      have hr : '\n' ∉ r := fun hm => h (List.mem_cons_of_mem c hm)
      rw [stripCommentsF_cons]
      by_cases hc : c = '%'
      · rw [if_pos hc, (dropToNewline_none_iff r).mpr hr, ih r hr]
      · rw [if_neg hc, ih r hr]

/-- Comment stripping acts line by line: a newline-terminated line is
truncated at its first `%` (escaped or not). -/
theorem stripCommentsF_line : ∀ l n r, '\n' ∉ l → (l ++ '\n' :: r).length ≤ n →
    stripCommentsF n (l ++ '\n' :: r) =
      l.takeWhile (fun c => c != '%') ++ '\n' :: stripCommentsF (r.length + 1) r := by
  intro l
  induction l with
  | nil =>
    intro n r _ hn
    cases n with
    | zero => exact absurd hn (by simp)
    | succ n =>
      have hrn : r.length ≤ n := by simp only [List.nil_append, List.length_cons] at hn; omega
      rw [List.nil_append, stripCommentsF_cons, if_neg (by decide : ¬ '\n' = '%'),
        stripCommentsF_eq n (r.length + 1) r hrn (Nat.le_succ _)]
      rfl
  | cons c l' ih =>
    intro n r h hn
    have hc : c ≠ '\n' := fun hc => h (by simp [hc])
    have hl : '\n' ∉ l' := fun hm => h (List.mem_cons_of_mem c hm)
    cases n with
    | zero => exact absurd hn (by simp)
    | succ n =>
      have hn' : (l' ++ '\n' :: r).length ≤ n := by
        simp only [List.cons_append, List.length_cons] at hn
        omega
      rw [List.cons_append, stripCommentsF_cons]
      by_cases hpc : c = '%'
      · rw [if_pos hpc, dropToNewline_append l' r hl]
        have hrn : r.length ≤ n := by
          simp only [List.length_append, List.length_cons] at hn'
          omega
        show '\n' :: stripCommentsF n r =
          (c :: l').takeWhile (fun c => c != '%') ++ '\n' :: stripCommentsF (r.length + 1) r
        rw [stripCommentsF_eq n (r.length + 1) r hrn (Nat.le_succ _)]
        subst hpc
        simp [List.takeWhile_cons]
      · rw [if_neg hpc, ih n r hl hn']
        have hck : (c != '%') = true := by simpa using hpc
        rw [List.takeWhile_cons, hck]
        rfl

/-- Claim C4 (amended): for every input text, the comment stripper of line 188
of `paper.py` truncates each newline-terminated line at its first comment
marker — whether or not the marker is preceded by a backslash — keeping the
newline, and leaves a final line with no newline terminator unchanged
(comment and all). -/
theorem c4_comment_stripping_amended :
    (∀ l r : Str, '\n' ∉ l →
      stripComments (l ++ '\n' :: r) =
        l.takeWhile (fun c => c != '%') ++ '\n' :: stripComments r) ∧
    (∀ s : Str, '\n' ∉ s → stripComments s = s) := by
  constructor
  · intro l r h
    exact stripCommentsF_line l ((l ++ '\n' :: r).length + 1) r h (Nat.le_succ _)
  · intro s h
    exact stripCommentsF_no_newline (s.length + 1) s h

/-- Claim C4 witness: the line `ab%cd` is truncated at the `%` and the
unterminated final line `xy%` is kept. -/
theorem c4_comment_stripping_amended_witness :
    stripComments ("ab%cd\nxy%".data) = "ab\nxy%".data := by
  have h1 := c4_comment_stripping_amended.1 ("ab%cd".data) ("xy%".data) (by decide)
  have h2 := c4_comment_stripping_amended.2 ("xy%".data) (by decide)
  rw [h2] at h1
  have e1 : "ab%cd".data ++ '\n' :: "xy%".data = "ab%cd\nxy%".data := by decide
  have e2 : ("ab%cd".data).takeWhile (fun c => c != '%') ++ '\n' :: "xy%".data =
      "ab\nxy%".data := by decide
  rw [e1, e2] at h1
  exact h1

/-- findSub locates an occurrence preceded by no earlier occurrence. -/
theorem findSub_append (pat : Str) : ∀ pre rest : Str,
    (∀ i, i < pre.length → ¬ pat <+: ((pre ++ rest).drop i)) →
    pat <+: rest →
    findSub pat (pre ++ rest) = some pre.length := by
  intro pre
  induction pre with
  | nil =>
    intro rest _ hmatch
    cases rest with
    | nil =>
      have hp : pat = [] := List.prefix_nil.mp hmatch
      subst hp
      rfl
    | cons c r =>
      rw [List.nil_append]
      show (if pat.isPrefixOf (c :: r) = true then some 0
          else (findSub pat r).map (· + 1)) = some 0
      rw [if_pos (isPrefixOf_eq_true_iff _ _ |>.mpr hmatch)]
  | cons a pre' ih =>
    intro rest hpre hmatch
    have h0 : ¬ pat <+: (a :: (pre' ++ rest)) := by
      have := hpre 0 (by simp)
      simpa using this
    have hpre' : ∀ i, i < pre'.length → ¬ pat <+: ((pre' ++ rest).drop i) := by
      intro i hi
      have := hpre (i + 1) (by simpa using Nat.succ_lt_succ hi)
      simpa using this
    have ha : ¬ pat.isPrefixOf (a :: (pre' ++ rest)) = true := fun hb =>
      h0 (isPrefixOf_eq_true_iff _ _ |>.mp hb)
    show (if pat.isPrefixOf (a :: (pre' ++ rest)) = true then some 0
        else (findSub pat (pre' ++ rest)).map (· + 1)) = some (a :: pre').length
    rw [if_neg ha, ih rest hpre' hmatch]
    rfl

/-- findSub fails exactly on texts not containing the pattern. -/
theorem findSub_eq_none (pat : Str) : ∀ s, ¬ (pat <:+: s) → findSub pat s = none := by
  intro s
  induction s with
  | nil =>
    intro h
    by_cases hp : pat.isPrefixOf ([] : Str) = true
    · exact absurd (toInfixRel _ _ ((isPrefixOf_eq_true_iff _ _).mp hp)) h
    · simp [findSub, hp]
  | cons c r ih =>
    intro h
    have hp : ¬ pat.isPrefixOf (c :: r) = true := fun hb =>
      h (toInfixRel _ _ ((isPrefixOf_eq_true_iff _ _).mp hb))
    have hr : ¬ pat <:+: r := fun hb => h (List.infix_cons hb)
    simp [findSub, hp, ih hr]

/-- The lazy scan succeeds immediately when the terminator matches here. -/
theorem scanToTerm_term (s : Str) (k : Nat) (h : termAt s = some k) :
    scanToTerm s = some ([], s.take k) := by
  cases s with
  | nil =>
    have h0 : termAt ([] : Str) = some 0 := by decide
    rw [h0] at h
    have hk : (0 : Nat) = k := by simpa using h
    subst hk
    rfl
  | cons c r =>
    simp only [scanToTerm]
    rw [h]

/-- The lazy scan consumes one character when no terminator matches here. -/
theorem scanToTerm_skip (c : Char) (r m t : Str) (h : termAt (c :: r) = none)
    (hr : scanToTerm r = some (m, t)) : scanToTerm (c :: r) = some (c :: m, t) := by
  simp only [scanToTerm]
  rw [h, hr]

/-- The lazy scan stops at the earliest position where the terminator
alternation matches, and returns the matched terminator text. -/
theorem scanToTerm_spec : ∀ m t post : Str,
    (∀ j, j < m.length → termAt ((m ++ (t ++ post)).drop j) = none) →
    termAt (t ++ post) = some t.length →
    scanToTerm (m ++ (t ++ post)) = some (m, t) := by
  intro m
  induction m with
  | nil =>
    intro t post _ hterm
    rw [List.nil_append]
    have h := scanToTerm_term (t ++ post) t.length hterm
    rw [List.take_left t post] at h
    exact h
  | cons c m' ih =>
    intro t post hnone hterm
    have h0 : termAt (c :: (m' ++ (t ++ post))) = none := by
      have := hnone 0 (by simp)
      simpa using this
    have hnone' : ∀ j, j < m'.length → termAt ((m' ++ (t ++ post)).drop j) = none := by
      intro j hj
      have := hnone (j + 1) (by simpa using Nat.succ_lt_succ hj)
      simpa using this
    rw [List.cons_append]
    exact scanToTerm_skip c _ m' t h0 (ih t post hnone' hterm)

/-- Claim C2 (amended): region extraction (lines 237-244 of `paper.py`).  If
the literal section heading does not occur in the document, the extracted
region is the empty string and no error is raised.  If it occurs, the
extracted region is the substring from the first occurrence of the heading up
to and INCLUDING the earliest following terminator — the next section heading,
end-of-document marker, bibliography marker, or appendix marker — with nothing
appended when the earliest terminator is end of string or a final newline
(`$`): `match.group(0)` contains the matched terminator text. -/
theorem c2_region_extraction_amended (name content pre m t post : Str) :
    (¬ ((secHeading name) <:+: content) → extractSection name content = []) ∧
    (content = pre ++ (secHeading name ++ (m ++ (t ++ post))) →
     (∀ i, i < pre.length → ¬ ((secHeading name) <+: (content.drop i))) →
     (∀ j, j < m.length → termAt ((m ++ (t ++ post)).drop j) = none) →
     termAt (t ++ post) = some t.length →
     extractSection name content = secHeading name ++ m ++ t) := by
  constructor
  · intro h
    have hnone : findSub (secHeading name) content = none := findSub_eq_none _ _ h
    simp [extractSection, hnone]
  · intro hc hpre hm ht
    subst hc
    have h1 : findSub (secHeading name)
        (pre ++ (secHeading name ++ (m ++ (t ++ post)))) = some pre.length :=
      findSub_append _ pre _ hpre (List.prefix_append _ _)
    have h2 : (pre ++ (secHeading name ++ (m ++ (t ++ post)))).drop
        (pre.length + (secHeading name).length) = m ++ (t ++ post) := by
      rw [← List.append_assoc pre (secHeading name) (m ++ (t ++ post))]
      have hd := List.drop_left (pre ++ secHeading name) (m ++ (t ++ post))
      rw [List.length_append] at hd
      exact hd
    have h3 := scanToTerm_spec m t post hm ht
    simp [extractSection, h1, h2, h3]

/-- Claim C2 witness: on a document with a `Conclusion` section (terminated by
end of string) and no `Introduction` section, the introduction region is empty
and the conclusion region is the heading plus the section body. -/
theorem c2_region_extraction_amended_witness :
    extractSection ("Introduction".data) ("X\\section\x7bConclusion\x7dBaz.".data) = [] ∧
    extractSection ("Conclusion".data) ("X\\section\x7bConclusion\x7dBaz.".data) =
      "\\section\x7bConclusion\x7dBaz.".data := by
  constructor
  · exact (c2_region_extraction_amended ("Introduction".data)
      ("X\\section\x7bConclusion\x7dBaz.".data) [] [] [] []).1 (by decide)
  · have h := (c2_region_extraction_amended ("Conclusion".data)
      ("X\\section\x7bConclusion\x7dBaz.".data) ("X".data) ("Baz.".data) [] []).2
      (by decide) (by decide) (by decide) (by decide)
    have e : secHeading ("Conclusion".data) ++ "Baz.".data ++ [] =
        "\\section\x7bConclusion\x7dBaz.".data := by decide
    rw [e] at h
    exact h

theorem noPctNl_cons (c : Char) (r : Str) :
    noPctNl (c :: r) = ((if c = '%' then !(r.contains '\n') else true) && noPctNl r) := rfl

theorem noPctNl_tail (c : Char) (r : Str) (h : noPctNl (c :: r) = true) : noPctNl r = true := by
  rw [noPctNl_cons, Bool.and_eq_true] at h
  exact h.2

theorem noPctNl_append_right : ∀ u t : Str, noPctNl (u ++ t) = true → noPctNl t = true := by
  intro u
  induction u with
  | nil => exact fun t h => h
  | cons c u' ih => exact fun t h => ih t (noPctNl_tail c _ h)

theorem noPctNl_suffix (t s : Str) (hs : t <:+ s) (h : noPctNl s = true) : noPctNl t = true := by
  obtain ⟨u, rfl⟩ := hs
  exact noPctNl_append_right u t h

theorem noPctNl_no_newline : ∀ s : Str, '\n' ∉ s → noPctNl s = true := by
  intro s
  induction s with
  | nil => intro _; rfl
  | cons c r ih =>
    intro h
    have hr : '\n' ∉ r := fun hm => h (List.mem_cons_of_mem c hm)
    rw [noPctNl_cons, Bool.and_eq_true]
    refine ⟨?_, ih hr⟩
    by_cases hc : c = '%'
    · rw [if_pos hc]
      simpa using hr
    · rw [if_neg hc]

theorem noNN_two (a b : Char) (r : Str) :
    noNN (a :: b :: r) = (!(a == '\n' && b == '\n') && noNN (b :: r)) := rfl

theorem noNN_tail (a : Char) (l : Str) (h : noNN (a :: l) = true) : noNN l = true := by
  cases l with
  | nil => rfl
  | cons b l' =>
    rw [noNN_two, Bool.and_eq_true] at h
    exact h.2

theorem noNN_append_right : ∀ u t : Str, noNN (u ++ t) = true → noNN t = true := by
  intro u
  induction u with
  | nil => exact fun t h => h
  | cons c u' ih => exact fun t h => ih t (noNN_tail c _ h)

theorem noNN_suffix (t s : Str) (hs : t <:+ s) (h : noNN s = true) : noNN t = true := by
  obtain ⟨u, rfl⟩ := hs
  exact noNN_append_right u t h

theorem noNN_cons_of (a : Char) (l : Str) (h : noNN l = true)
    (hh : l.head? = some '\n' → a ≠ '\n') : noNN (a :: l) = true := by
  cases l with
  | nil => rfl
  | cons b l' =>
    rw [noNN_two, Bool.and_eq_true]
    refine ⟨?_, h⟩
    by_cases hb : b = '\n'
    · have ha : a ≠ '\n' := hh (by simp [hb])
      have ha' : (a == '\n') = false := by simpa using ha
      simp [ha']
    · have hb' : (b == '\n') = false := by simpa using hb
      simp [hb']

theorem noThreeWS_three (a b c : Char) (r : Str) :
    noThreeWS (a :: b :: c :: r) =
      (!(isWS a && isWS b && isWS c) && noThreeWS (b :: c :: r)) := rfl

theorem noThreeWS_tail (a : Char) (l : Str) (h : noThreeWS (a :: l) = true) :
    noThreeWS l = true := by
  match l with
  | [] => rfl
  | [b] => rfl
  | b :: c :: r =>
    rw [noThreeWS_three, Bool.and_eq_true] at h
    exact h.2

theorem wsRun_nil : wsRun [] = 0 := rfl

theorem wsRun_cons (c : Char) (l : Str) :
    wsRun (c :: l) = if isWS c = true then wsRun l + 1 else 0 := by
  by_cases h : isWS c = true
  · simp [wsRun, List.takeWhile_cons, h]
  · simp [wsRun, List.takeWhile_cons, h]

theorem wsRun_le_two_of_noThree : ∀ s : Str, noThreeWS s = true → wsRun s ≤ 2 := by
  intro s h
  match s with
  | [] => simp [wsRun_nil]
  | [a] =>
    rw [wsRun_cons]
    by_cases ha : isWS a = true <;> simp [ha, wsRun_nil]
  | [a, b] =>
    rw [wsRun_cons, wsRun_cons]
    by_cases ha : isWS a = true <;> by_cases hb : isWS b = true <;>
      simp [ha, hb, wsRun_nil]
  | a :: b :: c :: r =>
    rw [noThreeWS_three, Bool.and_eq_true] at h
    rw [wsRun_cons]
    by_cases ha : isWS a = true
    · rw [if_pos ha, wsRun_cons]
      by_cases hb : isWS b = true
      · rw [if_pos hb, wsRun_cons]
        by_cases hc : isWS c = true
        · exfalso
          rw [ha, hb, hc] at h
          simp at h
        · rw [if_neg hc]
      · rw [if_neg hb]
        omega
    · rw [if_neg ha]
      omega

theorem noThreeWS_cons_of (a : Char) (l : Str) (h : noThreeWS l = true)
    (hr : isWS a = true → wsRun l ≤ 1) : noThreeWS (a :: l) = true := by
  match l with
  | [] => rfl
  | [b] => rfl
  | b :: c :: r =>
    rw [noThreeWS_three, Bool.and_eq_true]
    refine ⟨?_, h⟩
    by_cases ha : isWS a = true
    · have h1 : wsRun (b :: c :: r) ≤ 1 := hr ha
      rw [wsRun_cons] at h1
      by_cases hb : isWS b = true
      · rw [if_pos hb, wsRun_cons] at h1
        by_cases hc : isWS c = true
        · rw [if_pos hc] at h1
          omega
        · simp [ha, hb, hc]
      · simp [ha, hb]
    · simp [ha]

theorem collapseNLF_nil (n : Nat) : collapseNLF n [] = [] := by
  cases n <;> rfl

theorem collapseNLF_cons (n : Nat) (c : Char) (r : Str) :
    collapseNLF (n + 1) (c :: r) =
      if c = '\n' then '\n' :: collapseNLF n (r.dropWhile (· = '\n'))
      else c :: collapseNLF n r := rfl

theorem dropWhile_head_false (p : Char → Bool) :
    ∀ (l : Str) (d : Char) (t' : Str), l.dropWhile p = d :: t' → p d = false := by
  intro l
  induction l with
  | nil => intro d t' h; simp at h
  | cons c r ih =>
    intro d t' h
    rw [List.dropWhile_cons] at h
    by_cases hc : p c = true
    · rw [if_pos hc] at h
      exact ih d t' h
    · rw [if_neg hc] at h
      have : c = d := (List.cons.injEq c r d t' ▸ h).1
      rw [← this]
      simpa using hc

theorem mem_collapseNLF : ∀ n (s : Str) (x : Char), x ∈ collapseNLF n s → x ∈ s := by
  intro n
  induction n with
  | zero => exact fun s x h => h
  | succ n ih =>
    intro s x h
    cases s with
    | nil => rw [collapseNLF_nil] at h; simp at h
    | cons c r =>
      rw [collapseNLF_cons] at h
      by_cases hc : c = '\n'
      · rw [if_pos hc] at h
        rcases List.mem_cons.mp h with h | h
        · rw [h, hc]
          exact List.mem_cons_self '\n' r
        · have hm := ih _ x h
          have hsub : r.dropWhile (· = '\n') <:+ r := List.dropWhile_suffix _
          exact List.mem_cons_of_mem c (hsub.subset hm)
      · rw [if_neg hc] at h
        rcases List.mem_cons.mp h with h | h
        · rw [h]
          exact List.mem_cons_self c r
        · exact List.mem_cons_of_mem c (ih r x h)

theorem noPctNl_collapseNLF : ∀ n (s : Str), noPctNl s = true →
    noPctNl (collapseNLF n s) = true := by
  intro n
  induction n with
  | zero => exact fun s h => h
  | succ n ih =>
    intro s h
    cases s with
    | nil => rw [collapseNLF_nil]; rfl
    | cons c r =>
      rw [collapseNLF_cons]
      by_cases hc : c = '\n'
      · rw [if_pos hc, noPctNl_cons, Bool.and_eq_true]
        refine ⟨by rw [if_neg (by decide : ¬ '\n' = '%')], ?_⟩
        have ht : noPctNl (r.dropWhile (· = '\n')) = true :=
          noPctNl_suffix _ r (List.dropWhile_suffix _) (noPctNl_tail c r h)
        exact ih _ ht
      · rw [if_neg hc, noPctNl_cons, Bool.and_eq_true]
        refine ⟨?_, ih r (noPctNl_tail c r h)⟩
        by_cases hcp : c = '%'
        · rw [if_pos hcp]
          have hnr : '\n' ∉ r := by
            rw [noPctNl_cons, Bool.and_eq_true] at h
            have h1 := h.1
            rw [if_pos hcp] at h1
            simpa using h1
          have hnx : '\n' ∉ collapseNLF n r := fun hm => hnr (mem_collapseNLF n r '\n' hm)
          simpa using hnx
        · rw [if_neg hcp]

theorem noNN_collapseNLF : ∀ n (s : Str), s.length ≤ n →
    noNN (collapseNLF n s) = true := by
  intro n
  induction n with
  | zero =>
    intro s hs
    have : s = [] := List.length_eq_zero.mp (Nat.le_zero.mp hs)
    subst this
    rfl
  | succ n ih =>
    intro s hs
    cases s with
    | nil => rw [collapseNLF_nil]; rfl
    | cons c r =>
      have hrn : r.length ≤ n := by simp only [List.length_cons] at hs; omega
      rw [collapseNLF_cons]
      by_cases hc : c = '\n'
      · rw [if_pos hc]
        have htle : (r.dropWhile (· = '\n')).length ≤ n := by
          have h1 : (r.dropWhile (· = '\n')).length ≤ r.length := by
            exact (List.dropWhile_sublist _).length_le
          omega
        refine noNN_cons_of '\n' _ (ih _ htle) ?_
        intro hx
        exfalso
        cases ht : r.dropWhile (· = '\n') with
        | nil => rw [ht, collapseNLF_nil] at hx; simp at hx
        | cons d t' =>
          have hd : d ≠ '\n' := by
            have := dropWhile_head_false (fun x => decide (x = '\n')) r d t' ht
            simpa using this
          rw [ht] at hx
          cases n with
          | zero =>
            rw [ht] at htle
            simp at htle
          | succ n' =>
            rw [collapseNLF_cons, if_neg hd] at hx
            simp at hx
            exact hd hx
      · rw [if_neg hc]
        exact noNN_cons_of c _ (ih r hrn) (fun _ => hc)

theorem collapseNLF_fix : ∀ n (s : Str), noNN s = true → collapseNLF n s = s := by
  intro n
  induction n with
  | zero => exact fun s _ => rfl
  | succ n ih =>
    intro s h
    cases s with
    | nil => rw [collapseNLF_nil]
    | cons c r =>
      rw [collapseNLF_cons]
      by_cases hc : c = '\n'
      · subst hc
        rw [if_pos rfl]
        cases r with
        | nil => rw [List.dropWhile_nil, collapseNLF_nil]
        | cons d r' =>
          rw [noNN_two, Bool.and_eq_true] at h
          have hd : d ≠ '\n' := by simpa using h.1
          have hdrop : (d :: r').dropWhile (· = '\n') = d :: r' := by
            rw [List.dropWhile_cons, if_neg (by simpa using hd)]
          rw [hdrop, ih (d :: r') h.2]
      · rw [if_neg hc, ih r (noNN_tail c r h)]

theorem dropToNewline_suffix : ∀ (l t : Str), dropToNewline l = some t → t <:+ l := by
  intro l
  induction l with
  | nil => intro t h; simp [dropToNewline] at h
  | cons c r ih =>
    intro t h
    by_cases hc : c = '\n'
    · subst hc
      simp only [dropToNewline, reduceIte, Option.some.injEq] at h
      rw [← h]
      exact List.suffix_cons '\n' r
    · simp only [dropToNewline, if_neg hc] at h
      exact (ih t h).trans (List.suffix_cons c r)

theorem mem_stripCommentsF : ∀ n (s : Str) (x : Char),
    x ∈ stripCommentsF n s → x ∈ s ∨ x = '\n' := by
  intro n
  induction n with
  | zero => exact fun s x h => Or.inl h
  | succ n ih =>
    intro s x h
    cases s with
    | nil => rw [stripCommentsF_nil] at h; simp at h
    | cons c r =>
      by_cases hc : c = '%'
      · cases hd : dropToNewline r with
        | some rem =>
          have he : stripCommentsF (n + 1) (c :: r) = '\n' :: stripCommentsF n rem := by
            rw [stripCommentsF_cons, if_pos hc, hd]
          rw [he] at h
          rcases List.mem_cons.mp h with h | h
          · exact Or.inr h
          · rcases ih rem x h with h | h
            · exact Or.inl (List.mem_cons_of_mem c
                ((dropToNewline_suffix r rem hd).subset h))
            · exact Or.inr h
        | none =>
          have he : stripCommentsF (n + 1) (c :: r) = c :: stripCommentsF n r := by
            rw [stripCommentsF_cons, if_pos hc, hd]
          rw [he] at h
          rcases List.mem_cons.mp h with h | h
          · exact Or.inl (by rw [h]; exact List.mem_cons_self c r)
          · rcases ih r x h with h | h
            · exact Or.inl (List.mem_cons_of_mem c h)
            · exact Or.inr h
      · have he : stripCommentsF (n + 1) (c :: r) = c :: stripCommentsF n r := by
          rw [stripCommentsF_cons, if_neg hc]
        rw [he] at h
        rcases List.mem_cons.mp h with h | h
        · exact Or.inl (by rw [h]; exact List.mem_cons_self c r)
        · rcases ih r x h with h | h
          · exact Or.inl (List.mem_cons_of_mem c h)
          · exact Or.inr h

theorem noPctNl_stripCommentsF : ∀ n (s : Str), s.length ≤ n →
    noPctNl (stripCommentsF n s) = true := by
  intro n
  induction n with
  | zero =>
    intro s hs
    have : s = [] := List.length_eq_zero.mp (Nat.le_zero.mp hs)
    subst this
    rfl
  | succ n ih =>
    intro s hs
    cases s with
    | nil => rw [stripCommentsF_nil]; rfl
    | cons c r =>
      have hrn : r.length ≤ n := by simp only [List.length_cons] at hs; omega
      by_cases hc : c = '%'
      · cases hd : dropToNewline r with
        | some rem =>
          have he : stripCommentsF (n + 1) (c :: r) = '\n' :: stripCommentsF n rem := by
            rw [stripCommentsF_cons, if_pos hc, hd]
          rw [he, noPctNl_cons, Bool.and_eq_true]
          have hrem : rem.length ≤ n := le_trans (dropToNewline_le r rem hd) hrn
          exact ⟨by rw [if_neg (by decide : ¬ '\n' = '%')], ih rem hrem⟩
        | none =>
          have hnr : '\n' ∉ r := (dropToNewline_none_iff r).mp hd
          have he : stripCommentsF (n + 1) (c :: r) = c :: stripCommentsF n r := by
            rw [stripCommentsF_cons, if_pos hc, hd]
          rw [he, stripCommentsF_no_newline n r hnr, noPctNl_cons, Bool.and_eq_true]
          refine ⟨?_, noPctNl_no_newline r hnr⟩
          rw [if_pos hc]
          simpa using hnr
      · have he : stripCommentsF (n + 1) (c :: r) = c :: stripCommentsF n r := by
          rw [stripCommentsF_cons, if_neg hc]
        rw [he, noPctNl_cons, Bool.and_eq_true]
        exact ⟨by rw [if_neg hc], ih r hrn⟩

theorem stripCommentsF_fix : ∀ n (s : Str), noPctNl s = true → stripCommentsF n s = s := by
  intro n
  induction n with
  | zero => exact fun s _ => rfl
  | succ n ih =>
    intro s h
    cases s with
    | nil => rw [stripCommentsF_nil]
    | cons c r =>
      rw [noPctNl_cons, Bool.and_eq_true] at h
      by_cases hc : c = '%'
      · have h1 := h.1
        rw [if_pos hc] at h1
        have hnr : '\n' ∉ r := by simpa using h1
        rw [stripCommentsF_cons, if_pos hc, (dropToNewline_none_iff r).mpr hnr, ih r h.2]
      · rw [stripCommentsF_cons, if_neg hc, ih r h.2]

theorem collapseWSF_nil (n : Nat) : collapseWSF n [] = [] := by
  cases n <;> rfl

theorem collapseWSF_cons (n : Nat) (c : Char) (r : Str) :
    collapseWSF (n + 1) (c :: r) =
      if 3 ≤ ((c :: r).takeWhile isWS).length then
        ' ' :: collapseWSF n ((c :: r).dropWhile isWS)
      else c :: collapseWSF n r := rfl

theorem wsRun_collapseWSF_le : ∀ n (s : Str), wsRun s ≤ 2 →
    wsRun (collapseWSF n s) ≤ wsRun s := by
  intro n
  induction n with
  | zero => exact fun s _ => le_refl _
  | succ n ih =>
    intro s h2
    cases s with
    | nil => rw [collapseWSF_nil]
    | cons c r =>
      have heq : wsRun (c :: r) = ((c :: r).takeWhile isWS).length := rfl
      have hcond : ¬ 3 ≤ ((c :: r).takeWhile isWS).length := by omega
      rw [collapseWSF_cons, if_neg hcond, wsRun_cons]
      rw [wsRun_cons] at h2
      by_cases hc : isWS c = true
      · rw [if_pos hc]
        rw [if_pos hc] at h2
        have hr2 : wsRun r ≤ 2 := by omega
        have := ih r hr2
        rw [wsRun_cons, if_pos hc]
        omega
      · rw [if_neg hc, wsRun_cons, if_neg hc]

theorem head_or_collapseWSF (n : Nat) (c : Char) (r : Str) :
    (collapseWSF (n + 1) (c :: r)).head? = some c ∨
    (collapseWSF (n + 1) (c :: r)).head? = some ' ' := by
  rw [collapseWSF_cons]
  by_cases h : 3 ≤ ((c :: r).takeWhile isWS).length
  · rw [if_pos h]
    right
    rfl
  · rw [if_neg h]
    left
    rfl

theorem wsRun_dropWhile_zero (s : Str) : wsRun (s.dropWhile isWS) = 0 := by
  cases ht : s.dropWhile isWS with
  | nil => rfl
  | cons d t' =>
    have hd : isWS d = false := dropWhile_head_false isWS s d t' ht
    rw [wsRun_cons, if_neg (by simp [hd])]

theorem noThreeWS_collapseWSF : ∀ n (s : Str), s.length ≤ n →
    noThreeWS (collapseWSF n s) = true := by
  intro n
  induction n with
  | zero =>
    intro s hs
    have : s = [] := List.length_eq_zero.mp (Nat.le_zero.mp hs)
    subst this
    rfl
  | succ n ih =>
    intro s hs
    cases s with
    | nil => rw [collapseWSF_nil]; rfl
    | cons c r =>
      have hrn : r.length ≤ n := by simp only [List.length_cons] at hs; omega
      rw [collapseWSF_cons]
      by_cases hcond : 3 ≤ ((c :: r).takeWhile isWS).length
      · rw [if_pos hcond]
        have hwc : isWS c = true := by
          by_contra hnc
          have h0 : wsRun (c :: r) = 0 := by rw [wsRun_cons, if_neg hnc]
          have heq : wsRun (c :: r) = ((c :: r).takeWhile isWS).length := rfl
          omega
        have htle : ((c :: r).dropWhile isWS).length ≤ n := by
          rw [List.dropWhile_cons, if_pos hwc]
          have h1 : (r.dropWhile isWS).length ≤ r.length := by
            exact (List.dropWhile_sublist _).length_le
          omega
        refine noThreeWS_cons_of ' ' _ (ih _ htle) ?_
        intro _
        have h0 : wsRun ((c :: r).dropWhile isWS) = 0 := wsRun_dropWhile_zero (c :: r)
        have hle := wsRun_collapseWSF_le n ((c :: r).dropWhile isWS) (by omega)
        omega
      · rw [if_neg hcond]
        refine noThreeWS_cons_of c _ (ih r hrn) ?_
        intro hwc
        have heq : wsRun (c :: r) = ((c :: r).takeWhile isWS).length := rfl
        rw [wsRun_cons, if_pos hwc] at heq
        have hr2 : wsRun r ≤ 1 := by omega
        have hle := wsRun_collapseWSF_le n r (by omega)
        omega

theorem collapseWSF_fix : ∀ n (s : Str), noThreeWS s = true → collapseWSF n s = s := by
  intro n
  induction n with
  | zero => exact fun s _ => rfl
  | succ n ih =>
    intro s h
    cases s with
    | nil => rw [collapseWSF_nil]
    | cons c r =>
      have h2 := wsRun_le_two_of_noThree (c :: r) h
      have heq : wsRun (c :: r) = ((c :: r).takeWhile isWS).length := rfl
      rw [collapseWSF_cons, if_neg (by omega), ih r (noThreeWS_tail c r h)]

theorem mem_collapseWSF : ∀ n (s : Str) (x : Char),
    x ∈ collapseWSF n s → x ∈ s ∨ x = ' ' := by
  intro n
  induction n with
  | zero => exact fun s x h => Or.inl h
  | succ n ih =>
    intro s x h
    cases s with
    | nil => rw [collapseWSF_nil] at h; simp at h
    | cons c r =>
      rw [collapseWSF_cons] at h
      by_cases hcond : 3 ≤ ((c :: r).takeWhile isWS).length
      · rw [if_pos hcond] at h
        rcases List.mem_cons.mp h with h | h
        · exact Or.inr h
        · rcases ih _ x h with h | h
          · exact Or.inl (((List.dropWhile_suffix isWS).subset) h)
          · exact Or.inr h
      · rw [if_neg hcond] at h
        rcases List.mem_cons.mp h with h | h
        · exact Or.inl (by rw [h]; exact List.mem_cons_self c r)
        · rcases ih r x h with h | h
          · exact Or.inl (List.mem_cons_of_mem c h)
          · exact Or.inr h

theorem noPctNl_collapseWSF : ∀ n (s : Str), noPctNl s = true →
    noPctNl (collapseWSF n s) = true := by
  intro n
  induction n with
  | zero => exact fun s h => h
  | succ n ih =>
    intro s h
    cases s with
    | nil => rw [collapseWSF_nil]; rfl
    | cons c r =>
      rw [collapseWSF_cons]
      by_cases hcond : 3 ≤ ((c :: r).takeWhile isWS).length
      · rw [if_pos hcond, noPctNl_cons, Bool.and_eq_true]
        refine ⟨by rw [if_neg (by decide : ¬ ' ' = '%')], ?_⟩
        have ht : noPctNl ((c :: r).dropWhile isWS) = true :=
          noPctNl_suffix _ _ (List.dropWhile_suffix isWS) h
        exact ih _ ht
      · rw [if_neg hcond, noPctNl_cons, Bool.and_eq_true]
        refine ⟨?_, ih r (noPctNl_tail c r h)⟩
        by_cases hcp : c = '%'
        · rw [if_pos hcp]
          have hnr : '\n' ∉ r := by
            rw [noPctNl_cons, Bool.and_eq_true] at h
            have h1 := h.1
            rw [if_pos hcp] at h1
            simpa using h1
          have hnx : '\n' ∉ collapseWSF n r := by
            intro hm
            rcases mem_collapseWSF n r '\n' hm with hm | hm
            · exact hnr hm
            · exact absurd hm (by decide)
          simpa using hnx
        · rw [if_neg hcp]

theorem noNN_collapseWSF : ∀ n (s : Str), s.length ≤ n → noNN s = true →
    noNN (collapseWSF n s) = true := by
  intro n
  induction n with
  | zero =>
    intro s hs _
    have : s = [] := List.length_eq_zero.mp (Nat.le_zero.mp hs)
    subst this
    rfl
  | succ n ih =>
    intro s hs h
    cases s with
    | nil => rw [collapseWSF_nil]; rfl
    | cons c r =>
      have hrn : r.length ≤ n := by simp only [List.length_cons] at hs; omega
      rw [collapseWSF_cons]
      by_cases hcond : 3 ≤ ((c :: r).takeWhile isWS).length
      · rw [if_pos hcond]
        have htle : ((c :: r).dropWhile isWS).length ≤ n := by
          have hwc : isWS c = true := by
            by_contra hnc
            have h0 : wsRun (c :: r) = 0 := by rw [wsRun_cons, if_neg hnc]
            have heq : wsRun (c :: r) = ((c :: r).takeWhile isWS).length := rfl
            omega
          rw [List.dropWhile_cons, if_pos hwc]
          have h1 : (r.dropWhile isWS).length ≤ r.length := by
            exact (List.dropWhile_sublist _).length_le
          omega
        have hnt : noNN ((c :: r).dropWhile isWS) = true :=
          noNN_suffix _ _ (List.dropWhile_suffix isWS) h
        exact noNN_cons_of ' ' _ (ih _ htle hnt) (fun _ => by decide)
      · rw [if_neg hcond]
        refine noNN_cons_of c _ (ih r hrn (noNN_tail c r h)) ?_
        intro hx
        intro hcn
        subst hcn
        cases r with
        | nil =>
          rw [collapseWSF_nil] at hx
          simp at hx
        | cons d r' =>
          have hd : d ≠ '\n' := by
            rw [noNN_two, Bool.and_eq_true] at h
            simpa using h.1
          cases n with
          | zero => simp at hrn
          | succ n' =>
            rcases head_or_collapseWSF n' d r' with hh | hh
            · rw [hx] at hh
              exact hd (by simpa using hh.symm)
            · rw [hx] at hh
              exact absurd (by simpa using hh.symm) (by decide : ¬ (' ' = '\n'))

theorem removeBlocksF_cons (b e : Str) (n : Nat) (c : Char) (r : Str) :
    removeBlocksF b e (n + 1) (c :: r) =
      if b.isPrefixOf (c :: r) = true then
        match findSub e ((c :: r).drop b.length) with
        | some j => removeBlocksF b e n (((c :: r).drop b.length).drop (j + e.length))
        | none => c :: removeBlocksF b e n r
      else c :: removeBlocksF b e n r := rfl

/-- Block deletion is inert on a backslash-free text when the opening
delimiter starts with a backslash. -/
theorem removeBlocksF_id (b e : Str) (hb : b.head? = some '\\') :
    ∀ n (s : Str), '\\' ∉ s → removeBlocksF b e n s = s := by
  intro n
  induction n with
  | zero => exact fun s _ => rfl
  | succ n ih =>
    intro s h
    cases s with
    | nil => rfl
    | cons c r =>
      have hr : '\\' ∉ r := fun hm => h (List.mem_cons_of_mem c hm)
      have hnp : ¬ (b.isPrefixOf (c :: r) = true) := by
        intro hp
        have hpre := (isPrefixOf_eq_true_iff _ _).mp hp
        cases hbb : b with
        | nil => rw [hbb] at hb; simp at hb
        | cons b0 bs =>
          rw [hbb] at hb hpre
          have hb0 : b0 = '\\' := by simpa using hb
          have h1 := (List.cons_prefix_cons.mp hpre).1
          have hc : c = '\\' := by rw [← h1]; exact hb0
          exact h (by rw [hc]; exact List.mem_cons_self '\\' r)
      rw [removeBlocksF_cons, if_neg hnp, ih r hr]

theorem pyReplaceF_cons (pat repl : Str) (n : Nat) (c : Char) (r : Str) :
    pyReplaceF pat repl (n + 1) (c :: r) =
      if pat ≠ [] ∧ pat.isPrefixOf (c :: r) = true then
        repl ++ pyReplaceF pat repl n ((c :: r).drop pat.length)
      else c :: pyReplaceF pat repl n r := rfl

/-- Replacement is inert on a backslash-free text when the pattern starts
with a backslash. -/
theorem pyReplaceF_id (pat repl : Str) (hp : pat.head? = some '\\') :
    ∀ n (s : Str), '\\' ∉ s → pyReplaceF pat repl n s = s := by
  intro n
  induction n with
  | zero => exact fun s _ => rfl
  | succ n ih =>
    intro s h
    cases s with
    | nil => rfl
    | cons c r =>
      have hr : '\\' ∉ r := fun hm => h (List.mem_cons_of_mem c hm)
      have hnp : ¬ (pat ≠ [] ∧ pat.isPrefixOf (c :: r) = true) := by
        rintro ⟨-, hpp⟩
        have hpre := (isPrefixOf_eq_true_iff _ _).mp hpp
        cases hbb : pat with
        | nil => rw [hbb] at hp; simp at hp
        | cons b0 bs =>
          rw [hbb] at hp hpre
          have hb0 : b0 = '\\' := by simpa using hp
          have h1 := (List.cons_prefix_cons.mp hpre).1
          have hc : c = '\\' := by rw [← h1]; exact hb0
          exact h (by rw [hc]; exact List.mem_cons_self '\\' r)
      rw [pyReplaceF_cons, if_neg hnp, ih r hr]

/-- On a backslash-free input the normaliser reduces to comment stripping,
blank-line collapsing and whitespace collapsing: the `comment`-environment,
`\iffalse` and `\\` steps are inert. -/
theorem normalize_no_backslash (u : Str) (hu : '\\' ∉ u) :
    normalize u = collapseWS (collapseNL (stripComments u)) := by
  have h1 : '\\' ∉ stripComments u := by
    intro hm
    rcases mem_stripCommentsF _ u '\\' hm with hm | hm
    · exact hu hm
    · exact absurd hm (by decide)
  have h2 : '\\' ∉ collapseNL (stripComments u) := fun hm =>
    h1 (mem_collapseNLF _ _ '\\' hm)
  have e1 : removeBlocks ("\\begin\x7bcomment\x7d".data) ("\\end\x7bcomment\x7d".data)
      (stripComments u) = stripComments u :=
    removeBlocksF_id ("\\begin\x7bcomment\x7d".data) ("\\end\x7bcomment\x7d".data) rfl _ _ h1
  have e2 : removeBlocks ("\\iffalse".data) ("\\fi".data) (stripComments u) =
      stripComments u :=
    removeBlocksF_id ("\\iffalse".data) ("\\fi".data) rfl _ _ h1
  have e3 : pyReplace (collapseNL (stripComments u)) ("\\\\".data) [] =
      collapseNL (stripComments u) :=
    pyReplaceF_id ("\\\\".data) [] rfl _ _ h2
  simp only [normalize]
  rw [e1, e2, e3]

/-- Claim C6 (amended): the full normalisation sequence of lines 188-195 of
`paper.py` is idempotent on every input containing no backslash character.
(The counterexample above shows idempotence fails in general: the `\\`
removal step can join two newlines after blank-line collapsing has already
run.) -/
theorem c6_normalizer_idempotent_amended (s : Str) (h : '\\' ∉ s) :
    normalize (normalize s) = normalize s := by
  have hbs1 : '\\' ∉ stripComments s := by
    intro hm
    rcases mem_stripCommentsF _ s '\\' hm with hm | hm
    · exact h hm
    · exact absurd hm (by decide)
  have hbs2 : '\\' ∉ collapseNL (stripComments s) := fun hm =>
    hbs1 (mem_collapseNLF _ _ '\\' hm)
  have hbsv : '\\' ∉ collapseWS (collapseNL (stripComments s)) := by
    intro hm
    rcases mem_collapseWSF _ _ '\\' hm with hm | hm
    · exact hbs2 hm
    · exact absurd hm (by decide)
  have hQt : noPctNl (stripComments s) = true :=
    noPctNl_stripCommentsF _ s (Nat.le_succ _)
  have hQu : noPctNl (collapseNL (stripComments s)) = true :=
    noPctNl_collapseNLF _ _ hQt
  have hQv : noPctNl (collapseWS (collapseNL (stripComments s))) = true :=
    noPctNl_collapseWSF _ _ hQu
  have hNu : noNN (collapseNL (stripComments s)) = true :=
    noNN_collapseNLF _ _ (Nat.le_succ _)
  have hNv : noNN (collapseWS (collapseNL (stripComments s))) = true :=
    noNN_collapseWSF _ _ (Nat.le_succ _) hNu
  have h3v : noThreeWS (collapseWS (collapseNL (stripComments s))) = true :=
    noThreeWS_collapseWSF _ _ (Nat.le_succ _)
  have f1 : stripComments (collapseWS (collapseNL (stripComments s))) =
      collapseWS (collapseNL (stripComments s)) :=
    stripCommentsF_fix _ _ hQv
  have f2 : collapseNL (collapseWS (collapseNL (stripComments s))) =
      collapseWS (collapseNL (stripComments s)) :=
    collapseNLF_fix _ _ hNv
  have f3 : collapseWS (collapseWS (collapseNL (stripComments s))) =
      collapseWS (collapseNL (stripComments s)) :=
    collapseWSF_fix _ _ h3v
  rw [normalize_no_backslash s h, normalize_no_backslash _ hbsv, f1, f2, f3]

/-- Claim C6 witness: a backslash-free input with comments, blank lines and
whitespace runs. -/
theorem c6_normalizer_idempotent_amended_witness :
    '\\' ∉ ("a  %x\n\n   b".data) ∧
    normalize (normalize ("a  %x\n\n   b".data)) = normalize ("a  %x\n\n   b".data) :=
  ⟨by decide, c6_normalizer_idempotent_amended ("a  %x\n\n   b".data) (by decide)⟩

end Zad
